import Mathlib

/-!
Verification of the 20foods food-matching and weekly-aggregation engine.

Strings are modelled as `List Char`.  JavaScript `Date` values are modelled as
`Int` milliseconds since the Unix epoch in a fixed-offset timezone (no DST),
so that day 0 is 1970-01-01, a Thursday (JS `getDay` numbering: 0 = Sunday,
hence weekday of day `d` is `(d + 4) % 7`).  Under a fixed offset,
`setDate(getDate() + k)` is exactly a shift by `k * 86400000` milliseconds and
`setHours` rewrites the time-of-day component.
-/

namespace Foods

/-! ### Text (src: classes/support/Text.ts) -/

/-- The characters removed by JavaScript `String.prototype.trim`
(ECMAScript WhiteSpace and LineTerminator code points). -/
def isJsWhitespace (c : Char) : Bool :=
  c == '\t' || c == '\n' || c == (Char.ofNat 11) || c == (Char.ofNat 12) ||
  c == '\r' || c == ' ' || c == (Char.ofNat 160) || c == (Char.ofNat 0x1680) ||
  (Char.ofNat 0x2000) ≤ c && c ≤ (Char.ofNat 0x200A) ||
  c == (Char.ofNat 0x2028) || c == (Char.ofNat 0x2029) ||
  c == (Char.ofNat 0x202F) || c == (Char.ofNat 0x205F) ||
  c == (Char.ofNat 0x3000) || c == (Char.ofNat 0xFEFF)

/-- JS `String.prototype.trim`: strip leading and trailing whitespace. -/
def jsTrim (s : List Char) : List Char :=
  List.rdropWhile isJsWhitespace (s.dropWhile isJsWhitespace)

/-- JS `String.prototype.toLowerCase`, restricted to the ASCII letter range
(the catalog data is ASCII; `Char.toLower` lower-cases exactly `A`–`Z`). -/
def toLowerStr (s : List Char) : List Char := s.map Char.toLower

/-- Helper for `removeAll`: scans left to right; the `Nat` argument counts
characters of a previously found occurrence that remain to be consumed. -/
def removeAllAux (pat : List Char) : List Char → Nat → List Char
  | [], _ => []
  | c :: rest, 0 =>
    if pat.isPrefixOf (c :: rest) then removeAllAux pat rest (pat.length - 1)
    else c :: removeAllAux pat rest 0
  | _ :: rest, k + 1 => removeAllAux pat rest k

/-- JS `String.prototype.replaceAll(pat, '')`: remove the leftmost
non-overlapping occurrences of `pat`, scanning once left to right (the result
is not rescanned, so occurrences formed at a removal seam survive).  For an
empty pattern and empty replacement JS returns the string unchanged. -/
def removeAll (pat s : List Char) : List Char :=
  if pat.isEmpty then s else removeAllAux pat s 0

/-- JS `String.prototype.includes`: is `pat` a contiguous substring? -/
def containsSub (pat : List Char) : List Char → Bool
  | [] => pat.isEmpty
  | c :: rest => pat.isPrefixOf (c :: rest) || containsSub pat rest

/-- `Text.normalizeName`: `input.trim().toLowerCase()`. -/
def normalizeName (s : List Char) : List Char := toLowerStr (jsTrim s)

/-- `Text.normalizeForComparison`: `input.trim().toLowerCase().replaceAll(' ', '')`. -/
def normalizeForComparison (s : List Char) : List Char :=
  removeAll ([' ']) (toLowerStr (jsTrim s))

/-! ### FoodEntry (src: classes/data/FoodEntry.ts) -/

structure FoodEntry where
  name : List Char
  category : List Char
  synonyms : List (List Char)
deriving DecidableEq, Repr

/-- A separator character of the synonym-splitting regex `/[^\p{L} ]+/u`:
anything that is neither a letter nor a space.  The Unicode letter class
`\p{L}` is embedded restricted to the ASCII letters, which covers the
catalog's repertoire. -/
def isSeparator (c : Char) : Bool := !(c.isAlpha || c == ' ')

/-- `new FoodEntry(row)`.  The regex split on *runs* of separators followed by
`.filter(Boolean)` is embedded as a split on single separator characters
followed by the same removal of empty pieces, which yields the same list. -/
def FoodEntry.ofRow (row : List (List Char)) : FoodEntry :=
  { name := normalizeName (row.getD 0 [])
    category := normalizeName (row.getD 1 [])
    synonyms :=
      ((List.splitOnP isSeparator (row.getD 2 [])).map normalizeName).filter
        (fun s => !s.isEmpty) }

/-! ### CompareEntry (src: classes/data/CompareEntry.ts) -/

structure CompareEntry where
  original : List Char
  normalized : List Char
  food : FoodEntry
deriving DecidableEq, Repr

/-- `new CompareEntry(original, food)`. -/
def mkCompareEntry (original : List Char) (food : FoodEntry) : CompareEntry :=
  { original := normalizeName original
    normalized := normalizeForComparison original
    food := food }

/-! ### FoodData (src: singletons/data/foodData.ts) -/

/-- `FoodData.processRows`: keep rows with more than one cell, in order
(duplicate names only produce a console warning and are kept). -/
def processRows (rows : List (List (List Char))) : List FoodEntry :=
  (rows.filter (fun row => decide (1 < row.length))).map FoodEntry.ofRow

/-- `FoodData.addFoodToCompareItems`: one alias record for the food's name and
one per synonym. -/
def addFoodToCompareItems (food : FoodEntry) : List CompareEntry :=
  mkCompareEntry food.name food :: food.synonyms.map (fun syn => mkCompareEntry syn food)

/-- `FoodData.buildCompareItems`. -/
def buildCompareItems (foods : List FoodEntry) : List CompareEntry :=
  foods.flatMap addFoodToCompareItems

/-- The comparator `(first, second) => second.normalized.length - first.normalized.length`:
descending normalized length. -/
def lenDescRel (a b : CompareEntry) : Prop :=
  b.normalized.length ≤ a.normalized.length

instance : DecidableRel lenDescRel := fun _ _ => Nat.decLe _ _

instance : IsTotal CompareEntry lenDescRel :=
  ⟨fun a b => by unfold lenDescRel; exact Nat.le_total _ _⟩

instance : IsTrans CompareEntry lenDescRel :=
  ⟨fun _ _ _ hab hbc => Nat.le_trans hbc hab⟩

/-- `FoodData.sortCompareItems` on `m_compareItemsByLength`: JS `Array.sort`
is a stable sort, embedded as Mathlib's (stable) insertion sort. -/
def sortCompareItemsByLength (l : List CompareEntry) : List CompareEntry :=
  List.insertionSort lenDescRel l

/-- `FoodData.import`, restricted to the state the matcher reads:
the alias records sorted by normalized length, descending. -/
def importCompareItems (rows : List (List (List Char))) : List CompareEntry :=
  sortCompareItemsByLength (buildCompareItems (processRows rows))

/-- The loop body of `FoodData.processText`: `m_compareItemsByLength.forEach`,
with the working text shrinking on every hit. -/
def processTextLoop : List CompareEntry → List Char → List CompareEntry
  | [], _ => []
  | item :: rest, working =>
    if containsSub item.normalized working then
      item :: processTextLoop rest (removeAll item.normalized working)
    else
      processTextLoop rest working

/-- `FoodData.processText`. -/
def processText (items : List CompareEntry) (text : List Char) : List CompareEntry :=
  processTextLoop items (normalizeForComparison text)

/-- `FoodData.findForName`: first entry with the exact name. -/
def findForName (foods : List FoodEntry) (name : List Char) : Option FoodEntry :=
  foods.find? (fun entry => entry.name == name)

/-! ### HistoryEntry (src: classes/data/HistoryEntry.ts) -/

structure HistoryEntry where
  food : FoodEntry
  consumedName : List Char
  date : Int
deriving DecidableEq, Repr

/-- The persisted JSON shape `{foodName, consumedName, date}`.  The ISO-8601
date string round-trips through `Date.prototype.toISOString` / `new Date(iso)`
at millisecond precision, so it is embedded as the millisecond timestamp. -/
structure StorageData where
  foodName : List Char
  consumedName : List Char
  date : Int
deriving DecidableEq, Repr

/-- `HistoryEntry.toJson`. -/
def toJson (e : HistoryEntry) : StorageData :=
  { foodName := e.food.name, consumedName := e.consumedName, date := e.date }

/-- `HistoryEntry.createFromStorage`: resolves `foodName` against the current
catalog and throws (modelled as `Except.error`) when the name is not found. -/
def createFromStorage (catalog : List FoodEntry) (data : StorageData) :
    Except (List Char) HistoryEntry :=
  match findForName catalog data.foodName with
  | none => Except.error data.foodName
  | some food => Except.ok { food := food, consumedName := data.consumedName, date := data.date }

/-! ### WeekEntry (src: classes/data/WeekEntry.ts) -/

structure WeekEntry where
  startDate : Int
  endDate : Int
  foods : List FoodEntry
deriving DecidableEq, Repr

/-- Code-unit lexicographic comparison standing in for
`first.name.localeCompare(second.name)` on the (ASCII, lower-cased) names. -/
def leChars : List Char → List Char → Bool
  | [], _ => true
  | _ :: _, [] => false
  | a :: as, b :: bs => if a = b then leChars as bs else decide (a < b)

def nameAscRel (a b : FoodEntry) : Prop := leChars a.name b.name = true

instance : DecidableRel nameAscRel := fun _ _ => instDecidableEqBool _ _

/-- `new WeekEntry(startDate, endDate, foods)`: spreads the set into an array
and sorts it by name (JS sort is stable; embedded as stable insertion sort). -/
def mkWeekEntry (startDate endDate : Int) (foods : List FoodEntry) : WeekEntry :=
  { startDate := startDate, endDate := endDate
    foods := List.insertionSort nameAscRel foods }

/-! ### HistoryData (src: singletons/data/historyData.ts)

Date arithmetic: a JS `Date` is its millisecond timestamp; in the fixed-offset
model `getDay` is the weekday of the local day number and `setHours(0,0,0,0)` /
`setHours(23,59,59,999)` pin the time of day. -/

def msPerDay : Int := 86400000

/-- `setHours(0, 0, 0, 0)`: midnight of the same local day. -/
def zeroTime (t : Int) : Int := t - t % msPerDay

/-- `Date.prototype.getDay`: 0 = Sunday … 6 = Saturday; day 0 (1970-01-01)
is a Thursday. -/
def getDay (t : Int) : Int := ((t - t % msPerDay) / msPerDay + 4) % 7

/-- `HistoryData.startOfWeek` for week-start setting `firstDay`:
subtract `(getDay(date) - firstDay + 7) % 7` days, then zero the time. -/
def startOfWeek (firstDay t : Int) : Int :=
  zeroTime (t - ((getDay t - firstDay + 7) % 7) * msPerDay)

/-- `HistoryData.endOfWeek`: start of week, plus 6 days, at 23:59:59.999. -/
def endOfWeek (firstDay t : Int) : Int :=
  startOfWeek firstDay t + 6 * msPerDay + (msPerDay - 1)

/-- JS `Set` insertion: append if not already present. -/
def insertUnique (l : List FoodEntry) (f : FoodEntry) : List FoodEntry :=
  if f ∈ l then l else l ++ [f]

/-- The `Set<FoodEntry>` accumulated by `getWeekEntryForDate`, in insertion
order. -/
def collectFoods (entries : List HistoryEntry) : List FoodEntry :=
  entries.foldl (fun acc e => insertUnique acc e.food) []

/-- `HistoryData.getWeekEntryForDate`. -/
def getWeekEntryForDate (firstDay : Int) (log : List HistoryEntry) (date : Int) :
    WeekEntry :=
  mkWeekEntry (startOfWeek firstDay date) (endOfWeek firstDay (startOfWeek firstDay date))
    (collectFoods (log.filter (fun e =>
      decide (startOfWeek firstDay date ≤ e.date) &&
      decide (e.date ≤ endOfWeek firstDay (startOfWeek firstDay date)))))

/-- The `for` loop of `HistoryData.getCountsPerWeek`: starting at
`endOfWeek(now)`, emit a week entry and step back 7 days while
`endDate >= lastDate`. -/
def weeksLoop (firstDay : Int) (log : List HistoryEntry) (lastDate endDate : Int) :
    List WeekEntry :=
  if lastDate ≤ endDate then
    getWeekEntryForDate firstDay log endDate ::
      weeksLoop firstDay log lastDate (endDate - 7 * msPerDay)
  else
    []
termination_by (endDate + 7 * msPerDay - lastDate).toNat
decreasing_by
  simp only [msPerDay] at *
  omega

/-- `HistoryData.getCountsPerWeek`: empty log gives `[]`; otherwise the oldest
entry is `at(-1)` of the (descending-sorted) log. -/
def getCountsPerWeek (firstDay now : Int) (log : List HistoryEntry) : List WeekEntry :=
  match log.getLast? with
  | none => []
  | some oldest => weeksLoop firstDay log oldest.date (endOfWeek firstDay now)

/-- `HistoryData.loadFromStorage`: `texts.map(HistoryEntry.createFromStorage)`;
a JS exception from any record aborts the whole map, so no partial list is
ever produced. -/
def loadFromStorage (catalog : List FoodEntry) :
    List StorageData → Except (List Char) (List HistoryEntry)
  | [] => Except.ok []
  | d :: rest =>
    match createFromStorage catalog d with
    | Except.error msg => Except.error msg
    | Except.ok e =>
      match loadFromStorage catalog rest with
      | Except.error msg => Except.error msg
      | Except.ok es => Except.ok (e :: es)

/-! ### Occurrence counting (specification device)

`subCount pat s` counts the positions of `s` at which `pat` occurs as a
contiguous substring (occurrences may overlap). -/

def subCount (pat : List Char) : List Char → Nat
  | [] => if pat.isEmpty then 1 else 0
  | c :: rest => (if pat.isPrefixOf (c :: rest) then 1 else 0) + subCount pat rest

/-! ### Concrete catalogs used by the claims -/

/-- Catalog rows: food "pea", and food "peanut butter" with synonym "peanut". -/
def peaRows : List (List (List Char)) :=
  [[("pea").toList, ("veg").toList],
   [("peanut butter").toList, ("spread").toList, ("peanut").toList]]

def peanutButterFood : FoodEntry :=
  FoodEntry.ofRow [("peanut butter").toList, ("spread").toList, ("peanut").toList]

/-- Catalog rows: foods "applepie" and "apple". -/
def pieRows : List (List (List Char)) :=
  [[("applepie").toList, ("pie").toList], [("apple").toList, ("fruit").toList]]

/-- Catalog rows: single food "apple". -/
def appleRows : List (List (List Char)) :=
  [[("apple").toList, ("fruit").toList]]

def appleFood : FoodEntry := FoodEntry.ofRow [("apple").toList, ("fruit").toList]

/-- A legal import row whose first cell is all whitespace, producing a food
whose normalized name is the empty string. -/
def blankRows : List (List (List Char)) :=
  [[(" ").toList, ("cat").toList]]

/-- Catalog rows: foods "bcd" and "ad"; removing "bcd" from "abcdd" glues
"a" and "d" together. -/
def seamRows : List (List (List Char)) :=
  [[("bcd").toList, ("x").toList], [("ad").toList, ("y").toList]]

def adEntry : CompareEntry :=
  mkCompareEntry (("ad").toList) (FoodEntry.ofRow [("ad").toList, ("y").toList])

/-- A concrete history event: an apple eaten on 2024-01-07 (day 19729 since
the epoch, a Sunday) at 00:00 local time. -/
def demoEntry : HistoryEntry :=
  { food := appleFood, consumedName := ("apple").toList, date := 19729 * 86400000 }

def demoLog : List HistoryEntry := [demoEntry]

end Foods

namespace Foods

/-! ### Matcher lemmas -/

/-- Each scanned alias record is appended to the result at most at its own
position, so it is returned no more often than it occurs in the scan list. -/
theorem count_processTextLoop (item : CompareEntry) :
    ∀ (items : List CompareEntry) (working : List Char),
      (processTextLoop items working).count item ≤ items.count item := by
  intro items
  induction items with
  | nil => intro w; simp [processTextLoop]
  | cons i rest ih =>
    intro w
    by_cases h : containsSub i.normalized w
    · simp only [processTextLoop, h, if_true, List.count_cons]
      exact Nat.add_le_add_right (ih (removeAll i.normalized w)) _
    · simp only [processTextLoop, h, Bool.false_eq_true, if_false, List.count_cons]
      exact Nat.le_trans (ih w) (Nat.le_add_right _ _)

/-- If no alias occurs in the working text, nothing ever matches and the
working text is never modified, so the result is empty. -/
theorem processTextLoop_eq_nil :
    ∀ (items : List CompareEntry) (working : List Char),
      (∀ e ∈ items, containsSub e.normalized working = false) →
      processTextLoop items working = [] := by
  intro items
  induction items with
  | nil => intro w _; rfl
  | cons i rest ih =>
    intro w h
    have hi : containsSub i.normalized w = false := h i (by simp)
    simp only [processTextLoop, hi, Bool.false_eq_true, if_false]
    exact ih w (fun e he => h e (by simp [he]))

/-! ### Claim theorems: the matcher -/

/-- C1. Longest-match precedence: with foods "pea" and "peanut butter"
(synonym "peanut"), `processText "I ate peanut butter"` returns exactly the
"peanut butter" alias record, once, and neither "pea" nor "peanut"; and in
general the by-length scan list is sorted by normalized length descending, so
a longer alias is always scanned (and its text consumed) before any strictly
shorter alias it contains. -/
theorem longest_match_precedence :
    processText (importCompareItems peaRows) (("I ate peanut butter").toList) =
      [mkCompareEntry (("peanut butter").toList) peanutButterFood] ∧
    (∀ l : List CompareEntry,
      List.Sorted lenDescRel (sortCompareItemsByLength l)) := by
  refine ⟨by decide, fun l => List.sorted_insertionSort lenDescRel l⟩

/-- C2 counterexample. The alias "apple" (a catalog entry) occurs twice in the
comparison-normalized text "applepie applepie", yet `processText` returns its
record zero times — the longer alias "applepie" consumes both occurrences
first — refuting "returns that alias record exactly once" for every catalog
and text with two or more occurrences. -/
theorem no_double_counting_counterexample :
    mkCompareEntry (("apple").toList) appleFood ∈ importCompareItems pieRows ∧
    2 ≤ subCount (("apple").toList)
        (normalizeForComparison (("applepie applepie").toList)) ∧
    (processText (importCompareItems pieRows) (("applepie applepie").toList)).count
        (mkCompareEntry (("apple").toList) appleFood) = 0 := by
  decide

/-- C2 amended. Every alias record is returned at most as often as it occurs
in the scan list (hence at most once, since the built scan list enumerates
each record once); and in the motivating example — catalog "apple", text
"apple and apple", where the alias occurs twice — it is returned exactly
once.  ("Exactly once" does not hold for every catalog: a longer alias can
consume the occurrences first, see the counterexample.) -/
theorem no_double_counting_amended :
    (∀ (items : List CompareEntry) (text : List Char) (item : CompareEntry),
        (processText items text).count item ≤ items.count item) ∧
    2 ≤ subCount (("apple").toList)
        (normalizeForComparison (("apple and apple").toList)) ∧
    (processText (importCompareItems appleRows) (("apple and apple").toList)).count
        (mkCompareEntry (("apple").toList) appleFood) = 1 := by
  exact ⟨fun items text item => count_processTextLoop item items _, by decide, by decide⟩

/-- C9. Seam matches after removal: in the catalog {"bcd", "ad"} with input
"a bcd d", removing both-sided neighbours of "bcd" glues "a" and "d" into
"ad", so the returned record "ad" does not occur in the comparison-normalized
original text at all. -/
theorem seam_match_exists :
    adEntry ∈ processText (importCompareItems seamRows) (("a bcd d").toList) ∧
    containsSub adEntry.normalized
      (normalizeForComparison (("a bcd d").toList)) = false := by
  decide

/-- C8 counterexample. A catalog state reachable through `import` (a row whose
name cell is all whitespace) contains an alias whose normalized form is empty;
JS `includes('')` is always true, so `processText ""` returns that record and
the result is not empty — refuting "empty text yields no matches for every
catalog state". -/
theorem matcher_empty_text_counterexample :
    processText (importCompareItems blankRows) [] ≠ [] := by
  decide

/-- C8 amended. Empty text yields no matches for every catalog whose aliases
all have a non-empty normalized form (true of any catalog without an
all-whitespace name or synonym cell); and for every catalog and every text in
which no alias's normalized form occurs, the result is the empty sequence
(the matcher is total — no error is possible). -/
theorem matcher_edge_cases_amended :
    (∀ items : List CompareEntry,
        (∀ e ∈ items, e.normalized ≠ []) → processText items [] = []) ∧
    (∀ (items : List CompareEntry) (text : List Char),
        (∀ e ∈ items, containsSub e.normalized (normalizeForComparison text) = false) →
        processText items text = []) := by
  constructor
  · intro items h
    apply processTextLoop_eq_nil
    intro e he
    have : e.normalized.isEmpty = false := by
      cases hn : e.normalized with
      | nil => exact absurd hn (h e he)
      | cons c cs => rfl
    simpa [normalizeForComparison, jsTrim, toLowerStr, removeAll, containsSub] using this
  · intro items text h
    exact processTextLoop_eq_nil items _ h

/-! ### Claim theorems: normalizeForComparison and interior whitespace -/

theorem char_toNat_ofNat_small (m : Nat) (h : m < 55296) : (Char.ofNat m).toNat = m := by
  rw [Char.ofNat, dif_pos (Or.inl h : m.isValidChar)]
  rfl

/-- For a character `c` that is neither an ASCII upper-case letter nor an
ASCII lower-case letter, `toLower x = c` exactly when `x = c`. -/
theorem toLower_eq_iff (c : Char) (h1 : ¬(65 ≤ c.toNat ∧ c.toNat ≤ 90))
    (h2 : ¬(97 ≤ c.toNat ∧ c.toNat ≤ 122)) (x : Char) :
    x.toLower = c ↔ x = c := by
  simp only [Char.toLower]
  by_cases hx : x.toNat ≥ 65 ∧ x.toNat ≤ 90
  · rw [if_pos hx]
    constructor
    · intro he
      exfalso
      have hv : (Char.ofNat (x.toNat + 32)).toNat = x.toNat + 32 :=
        char_toNat_ofNat_small _ (by omega)
      rw [he] at hv
      omega
    · intro he
      exact absurd (he ▸ hx) h1
  · rw [if_neg hx]

/-- Lower-casing preserves the count of any character that is not an ASCII
letter. -/
theorem count_toLowerStr (c : Char) (hiff : ∀ x : Char, x.toLower = c ↔ x = c) :
    ∀ l : List Char, (toLowerStr l).count c = l.count c := by
  intro l
  induction l with
  | nil => rfl
  | cons a l ih =>
    have hbeq : (a.toLower == c) = (a == c) := by
      by_cases hac : a = c
      · simp [hac, (hiff c).2 rfl]
      · have h3 : ¬a.toLower = c := fun hh => hac ((hiff a).1 hh)
        simp [hac, h3]
    simp only [toLowerStr] at ih
    simp only [toLowerStr, List.map_cons, List.count_cons, hbeq, ih]

/-- `replaceAll` with a single-character pattern removes exactly the
occurrences of that character. -/
theorem removeAll_singleton (c : Char) :
    ∀ l : List Char, removeAll [c] l = l.filter (fun x => x != c) := by
  have aux : ∀ l : List Char, removeAllAux [c] l 0 = l.filter (fun x => x != c) := by
    intro l
    induction l with
    | nil => rfl
    | cons a l ih =>
      by_cases h : c = a
      · subst h
        simp [removeAllAux, List.isPrefixOf, ih]
      · have hne : (c == a) = false := by simp [h]
        simp [removeAllAux, List.isPrefixOf, hne, Ne.symm h, ih]
  intro l
  simpa [removeAll] using aux l

/-- Filtering with a predicate that holds at `c` preserves the count of `c`. -/
theorem count_filter_of_pos (p : Char → Bool) (c : Char) (hc : p c = true) :
    ∀ l : List Char, (l.filter p).count c = l.count c := by
  intro l
  induction l with
  | nil => rfl
  | cons a l ih =>
    by_cases hp : p a = true
    · simp [List.filter_cons, hp, List.count_cons, ih]
    · have hne : ¬(a == c) = true := by
        intro hh
        exact hp (beq_iff_eq.mp hh ▸ hc)
      simp [List.filter_cons, hp, List.count_cons, ih, hne]

/-- C10. `normalizeForComparison` removes only the ASCII space U+0020 from
the interior: interior tabs, newlines and non-breaking spaces (anything that
survives the trim) are preserved, so alias texts differing only by such a
character do not compare equal. -/
theorem normalizeForComparison_interior :
    (∀ (s : List Char) (c : Char),
        c = '\t' ∨ c = '\n' ∨ c = Char.ofNat 160 →
        (normalizeForComparison s).count c = (jsTrim s).count c) ∧
    normalizeForComparison (("a\tb").toList) ≠ normalizeForComparison (("ab").toList) := by
  constructor
  · intro s c hc
    have h1 : ¬(65 ≤ c.toNat ∧ c.toNat ≤ 90) := by
      rcases hc with h | h | h <;> subst h <;> decide
    have h2 : ¬(97 ≤ c.toNat ∧ c.toNat ≤ 122) := by
      rcases hc with h | h | h <;> subst h <;> decide
    have hs : ((fun x => x != ' ') c) = true := by
      rcases hc with h | h | h <;> subst h <;> decide
    unfold normalizeForComparison
    rw [removeAll_singleton, count_filter_of_pos (fun x => x != ' ') c hs]
    exact count_toLowerStr c (toLower_eq_iff c h1 h2) (jsTrim s)
  · decide

/-- C10 witness: an interior tab survives normalization. -/
theorem normalizeForComparison_interior_witness :
    (normalizeForComparison (("x\ty").toList)).count '\t' =
      (jsTrim (("x\ty").toList)).count '\t' :=
  normalizeForComparison_interior.1 (("x\ty").toList) '\t' (Or.inl rfl)

/-! ### Week arithmetic lemmas -/

theorem startOfWeek_le (f t : Int) : startOfWeek f t ≤ t := by
  unfold startOfWeek zeroTime getDay msPerDay
  omega

theorem lt_startOfWeek (f t : Int) : t - 7 * msPerDay < startOfWeek f t := by
  unfold startOfWeek zeroTime getDay msPerDay
  omega

/-- `startOfWeek` commutes with whole-week shifts. -/
theorem startOfWeek_shift (f t : Int) :
    startOfWeek f (t - 7 * msPerDay) = startOfWeek f t - 7 * msPerDay := by
  unfold startOfWeek zeroTime getDay msPerDay
  omega

/-- The start of a week is its own week's start, for every (even out-of-range)
week-start setting. -/
theorem startOfWeek_idem (f t : Int) :
    startOfWeek f (startOfWeek f t) = startOfWeek f t := by
  unfold startOfWeek zeroTime getDay msPerDay
  omega

/-- `endOfWeek` lands on the last instant of its week, so its own week starts
exactly 7 days minus 1 ms earlier. -/
theorem startOfWeek_endOfWeek (f t : Int) :
    startOfWeek f (endOfWeek f t) = endOfWeek f t - 7 * msPerDay + 1 := by
  unfold endOfWeek startOfWeek zeroTime getDay msPerDay
  omega

theorem startOfWeek_mod (f t : Int) : startOfWeek f t % msPerDay = 0 := by
  unfold startOfWeek zeroTime getDay msPerDay
  omega

theorem le_endOfWeek (f t : Int) : t ≤ endOfWeek f t := by
  unfold endOfWeek startOfWeek zeroTime getDay msPerDay
  omega

theorem getWeekEntryForDate_startDate (f : Int) (log : List HistoryEntry) (t : Int) :
    (getWeekEntryForDate f log t).startDate = startOfWeek f t := rfl

theorem getWeekEntryForDate_endDate (f : Int) (log : List HistoryEntry) (t : Int) :
    (getWeekEntryForDate f log t).endDate = endOfWeek f (startOfWeek f t) := rfl

/-! ### Claim theorems: week bucketing -/

/-- C4. Week bucketing with week-start Monday (1): any Sunday timestamp (in
particular Sunday 23:59) is bucketed into the week starting the preceding
Monday — `startOfWeek` subtracts `(weekday - startDay + 7) mod 7 = 6` days and
zeroes the time of day — and that start is itself a Monday. -/
theorem week_bucketing_sunday (t : Int) (h : getDay t = 0) :
    startOfWeek 1 t = zeroTime t - 6 * msPerDay ∧
    getDay (startOfWeek 1 t) = 1 := by
  simp only [startOfWeek, zeroTime, getDay, msPerDay] at h ⊢
  omega

/-- C4 witness: Sunday 2024-01-07 23:59 local time (day 19729 since the
epoch) maps to Monday 2024-01-01 00:00 (day 19723), six days earlier. -/
theorem week_bucketing_sunday_witness :
    getDay (19729 * 86400000 + 86340000) = 0 ∧
    startOfWeek 1 (19729 * 86400000 + 86340000) =
      zeroTime (19729 * 86400000 + 86340000) - 6 * msPerDay ∧
    startOfWeek 1 (19729 * 86400000 + 86340000) = 19723 * 86400000 :=
  ⟨by decide,
   (week_bucketing_sunday (19729 * 86400000 + 86340000) (by decide)).1,
   by decide⟩

/-! ### Set-collection lemmas for week entries -/

theorem mem_insertUnique (l : List FoodEntry) (fd x : FoodEntry) :
    x ∈ insertUnique l fd ↔ x ∈ l ∨ x = fd := by
  unfold insertUnique
  by_cases h : fd ∈ l
  · rw [if_pos h]
    constructor
    · exact fun hx => Or.inl hx
    · rintro (hx | rfl) <;> [exact hx; exact h]
  · rw [if_neg h]
    simp

theorem mem_foldl_insertUnique :
    ∀ (entries : List HistoryEntry) (acc : List FoodEntry) (x : FoodEntry),
      x ∈ entries.foldl (fun acc e => insertUnique acc e.food) acc ↔
        x ∈ acc ∨ ∃ e ∈ entries, e.food = x := by
  intro entries
  induction entries with
  | nil => simp
  | cons e rest ih =>
    intro acc x
    simp only [List.foldl_cons, ih, mem_insertUnique, List.mem_cons]
    constructor
    · rintro ((hx | rfl) | ⟨e2, he2, rfl⟩)
      · exact Or.inl hx
      · exact Or.inr ⟨e, Or.inl rfl, rfl⟩
      · exact Or.inr ⟨e2, Or.inr he2, rfl⟩
    · rintro (hx | ⟨e2, (rfl | he2), rfl⟩)
      · exact Or.inl (Or.inl hx)
      · exact Or.inl (Or.inr rfl)
      · exact Or.inr ⟨e2, he2, rfl⟩

theorem mem_collectFoods (entries : List HistoryEntry) (x : FoodEntry) :
    x ∈ collectFoods entries ↔ ∃ e ∈ entries, e.food = x := by
  unfold collectFoods
  rw [mem_foldl_insertUnique]
  simp

/-- C5. WeekEntry invariant: for every week-start setting, log and date, the
produced entry spans exactly `startDate .. startDate + 6 days` with the start
at local midnight and the end at 23:59:59.999, and every listed food comes
from at least one logged event dated within the closed interval. -/
theorem weekEntry_invariant (f : Int) (log : List HistoryEntry) (t : Int) :
    (getWeekEntryForDate f log t).endDate =
      (getWeekEntryForDate f log t).startDate + 6 * msPerDay + (msPerDay - 1) ∧
    (getWeekEntryForDate f log t).startDate % msPerDay = 0 ∧
    (getWeekEntryForDate f log t).endDate % msPerDay = msPerDay - 1 ∧
    ∀ food ∈ (getWeekEntryForDate f log t).foods,
      ∃ e ∈ log, e.food = food ∧
        (getWeekEntryForDate f log t).startDate ≤ e.date ∧
        e.date ≤ (getWeekEntryForDate f log t).endDate := by
  refine ⟨?_, ?_, ?_, ?_⟩
  · rw [getWeekEntryForDate_endDate, getWeekEntryForDate_startDate]
    unfold endOfWeek
    rw [startOfWeek_idem]
  · rw [getWeekEntryForDate_startDate]
    exact startOfWeek_mod f t
  · rw [getWeekEntryForDate_endDate]
    have h1 := startOfWeek_mod f (startOfWeek f t)
    unfold endOfWeek at *
    unfold msPerDay at *
    omega
  · intro food hf
    have hmem : food ∈ collectFoods (log.filter (fun e =>
        decide (startOfWeek f t ≤ e.date) &&
        decide (e.date ≤ endOfWeek f (startOfWeek f t)))) := by
      have := (List.perm_insertionSort nameAscRel _).mem_iff.mp hf
      exact this
    rw [mem_collectFoods] at hmem
    obtain ⟨e, he, rfl⟩ := hmem
    rw [List.mem_filter] at he
    obtain ⟨helog, hcond⟩ := he
    have h1 : startOfWeek f t ≤ e.date ∧ e.date ≤ endOfWeek f (startOfWeek f t) := by
      simpa using hcond
    exact ⟨e, helog, rfl, h1.1, h1.2⟩

/-- C5 witness: the invariant at the concrete one-event log, week-start
Monday, on the event's own date; the event's food is listed, and the
existence part produces an in-range event for it. -/
theorem weekEntry_invariant_witness :
    (getWeekEntryForDate 1 demoLog (19729 * 86400000)).endDate =
      (getWeekEntryForDate 1 demoLog (19729 * 86400000)).startDate +
        6 * msPerDay + (msPerDay - 1) ∧
    (∃ e ∈ demoLog, e.food = appleFood ∧
      (getWeekEntryForDate 1 demoLog (19729 * 86400000)).startDate ≤ e.date ∧
      e.date ≤ (getWeekEntryForDate 1 demoLog (19729 * 86400000)).endDate) :=
  ⟨(weekEntry_invariant 1 demoLog (19729 * 86400000)).1,
   (weekEntry_invariant 1 demoLog (19729 * 86400000)).2.2.2 appleFood (by decide)⟩

/-! ### The getCountsPerWeek loop -/

theorem weeksLoop_ne_nil (f : Int) (log : List HistoryEntry) (L e : Int)
    (h : L ≤ e) : weeksLoop f log L e ≠ [] := by
  rw [weeksLoop, if_pos h]
  simp

theorem weeksLoop_head (f : Int) (log : List HistoryEntry) (L e : Int)
    (h : L ≤ e) :
    (weeksLoop f log L e).head? = some (getWeekEntryForDate f log e) := by
  rw [weeksLoop, if_pos h]
  rfl

/-- Consecutive emitted week entries are exactly 7 days apart, so the
sequence of start dates is strictly decreasing. -/
theorem weeksLoop_chain (f : Int) (log : List HistoryEntry) (L e : Int) :
    List.Chain' (fun a b => b.startDate < a.startDate) (weeksLoop f log L e) := by
  rw [weeksLoop]
  by_cases h : L ≤ e
  · rw [if_pos h, List.chain'_cons']
    refine ⟨?_, weeksLoop_chain f log L (e - 7 * msPerDay)⟩
    intro b hb
    by_cases h2 : L ≤ e - 7 * msPerDay
    · rw [weeksLoop_head f log L _ h2] at hb
      have hbeq : b = getWeekEntryForDate f log (e - 7 * msPerDay) :=
        Option.some_injective _ (by simpa using hb.symm)
      subst hbeq
      rw [getWeekEntryForDate_startDate, getWeekEntryForDate_startDate,
        startOfWeek_shift]
      have : (0 : Int) < 7 * msPerDay := by unfold msPerDay; omega
      omega
    · rw [weeksLoop, if_neg h2] at hb
      simp at hb
  · rw [if_neg h]
    exact List.chain'_nil
termination_by (e + 7 * msPerDay - L).toNat
decreasing_by
  simp only [msPerDay] at *
  omega

/-- If `startOfWeek e = e - 7 days + 1` (true of every `endOfWeek` instant,
and preserved by 7-day steps), the last emitted entry's range contains the
stop bound `L`. -/
theorem weeksLoop_getLast (f : Int) (log : List HistoryEntry) (L e : Int)
    (h : L ≤ e) (hinv : startOfWeek f e = e - 7 * msPerDay + 1) :
    ∀ w, (weeksLoop f log L e).getLast? = some w →
      w.startDate ≤ L ∧ L ≤ w.endDate := by
  intro w hw
  rw [weeksLoop, if_pos h] at hw
  cases hcase : weeksLoop f log L (e - 7 * msPerDay) with
  | nil =>
    rw [hcase, List.getLast?_singleton] at hw
    have hww : w = getWeekEntryForDate f log e := by
      exact (Option.some_injective _ hw).symm
    subst hww
    have h2 : ¬L ≤ e - 7 * msPerDay := by
      intro hcon
      exact weeksLoop_ne_nil f log L (e - 7 * msPerDay) hcon hcase
    constructor
    · rw [getWeekEntryForDate_startDate, hinv]
      omega
    · rw [getWeekEntryForDate_endDate]
      have hend : endOfWeek f (startOfWeek f e) =
          startOfWeek f e + 6 * msPerDay + (msPerDay - 1) := by
        unfold endOfWeek
        rw [startOfWeek_idem]
      rw [hend, hinv]
      unfold msPerDay
      unfold msPerDay at hinv
      omega
  | cons b bs =>
    rw [hcase, List.getLast?_cons_cons] at hw
    have h2 : L ≤ e - 7 * msPerDay := by
      by_contra hno
      rw [weeksLoop, if_neg hno] at hcase
      exact List.noConfusion hcase
    have hinv2 : startOfWeek f (e - 7 * msPerDay) =
        (e - 7 * msPerDay) - 7 * msPerDay + 1 := by
      rw [startOfWeek_shift, hinv]
      ring
    have := weeksLoop_getLast f log L (e - 7 * msPerDay) h2 hinv2 w
      (by rw [hcase]; exact hw)
    exact this
termination_by (e + 7 * msPerDay - L).toNat
decreasing_by
  simp only [msPerDay] at *
  omega

/-- In a list sorted descending by date, the `at(-1)` element is the
oldest. -/
theorem getLast_is_oldest :
    ∀ (log : List HistoryEntry) (oldest : HistoryEntry),
      log.getLast? = some oldest →
      log.Pairwise (fun a b => b.date ≤ a.date) →
      ∀ x ∈ log, oldest.date ≤ x.date := by
  intro log
  induction log with
  | nil => intro oldest h; simp at h
  | cons a rest ih =>
    intro oldest hlast hsort x hx
    obtain ⟨ha, htail⟩ := List.pairwise_cons.mp hsort
    cases hrest : rest with
    | nil =>
      subst hrest
      rw [List.getLast?_singleton] at hlast
      have : a = oldest := Option.some_injective _ hlast
      subst this
      have : x = a := by simpa using hx
      subst this
      exact le_refl _
    | cons b bs =>
      subst hrest
      rw [List.getLast?_cons_cons] at hlast
      rcases List.mem_cons.mp hx with rfl | hx2
      · have hmem : oldest ∈ b :: bs := List.mem_of_getLast?_eq_some hlast
        exact ha oldest hmem
      · exact ih oldest hlast htail x hx2

/-- C3. `getCountsPerWeek`: with the store's data invariants (log sorted
descending by date, events not in the future), the result is non-empty for a
non-empty log, its start dates are strictly decreasing, and the last entry's
closed range contains the oldest stored event's date. -/
theorem getCountsPerWeek_spec (f now : Int) (log : List HistoryEntry)
    (oldest : HistoryEntry)
    (hlast : log.getLast? = some oldest)
    (hsort : log.Pairwise (fun a b => b.date ≤ a.date))
    (hnow : oldest.date ≤ now) :
    getCountsPerWeek f now log ≠ [] ∧
    List.Chain' (fun a b => b.startDate < a.startDate)
      (getCountsPerWeek f now log) ∧
    (∀ x ∈ log, oldest.date ≤ x.date) ∧
    (∀ w, (getCountsPerWeek f now log).getLast? = some w →
      w.startDate ≤ oldest.date ∧ oldest.date ≤ w.endDate) := by
  have hle : oldest.date ≤ endOfWeek f now := le_trans hnow (le_endOfWeek f now)
  have hred : getCountsPerWeek f now log =
      weeksLoop f log oldest.date (endOfWeek f now) := by
    unfold getCountsPerWeek
    rw [hlast]
  refine ⟨?_, ?_, getLast_is_oldest log oldest hlast hsort, ?_⟩
  · rw [hred]
    exact weeksLoop_ne_nil f log oldest.date (endOfWeek f now) hle
  · rw [hred]
    exact weeksLoop_chain f log oldest.date (endOfWeek f now)
  · intro w hw
    rw [hred] at hw
    exact weeksLoop_getLast f log oldest.date (endOfWeek f now) hle
      (startOfWeek_endOfWeek f now) w hw

/-- C3 witness: the one-event demo log, week-start Sunday, queried at the
event's own timestamp. -/
theorem getCountsPerWeek_spec_witness :
    getCountsPerWeek 0 (19729 * 86400000) demoLog ≠ [] ∧
    List.Chain' (fun a b => b.startDate < a.startDate)
      (getCountsPerWeek 0 (19729 * 86400000) demoLog) ∧
    (∀ x ∈ demoLog, demoEntry.date ≤ x.date) ∧
    (∀ w, (getCountsPerWeek 0 (19729 * 86400000) demoLog).getLast? = some w →
      w.startDate ≤ demoEntry.date ∧ demoEntry.date ≤ w.endDate) :=
  getCountsPerWeek_spec 0 (19729 * 86400000) demoLog demoEntry
    (by decide) (by decide) (by decide)

/-! ### Claim theorems: persistence -/

/-- C6. Round trip: if the entry's food name resolves in the current catalog,
`createFromStorage (toJson e)` succeeds and reproduces the food name, the
consumed name and the millisecond-precise date. -/
theorem historyEntry_round_trip (catalog : List FoodEntry) (e : HistoryEntry)
    (h : (findForName catalog e.food.name).isSome) :
    ∃ e2, createFromStorage catalog (toJson e) = Except.ok e2 ∧
      e2.food.name = e.food.name ∧
      e2.consumedName = e.consumedName ∧
      e2.date = e.date := by
  obtain ⟨fd, hfd⟩ := Option.isSome_iff_exists.mp h
  refine ⟨{ food := fd, consumedName := e.consumedName, date := e.date }, ?_, ?_, rfl, rfl⟩
  · simp only [createFromStorage, toJson]
    rw [hfd]
  · unfold findForName at hfd
    have hp := List.find?_some hfd
    exact beq_iff_eq.mp hp

/-- C6 witness: round trip of the demo entry against the catalog containing
its food. -/
theorem historyEntry_round_trip_witness :
    ∃ e2, createFromStorage [appleFood] (toJson demoEntry) = Except.ok e2 ∧
      e2.food.name = demoEntry.food.name ∧
      e2.consumedName = demoEntry.consumedName ∧
      e2.date = demoEntry.date :=
  historyEntry_round_trip [appleFood] demoEntry (by decide)

/-- C7. Fatal history load: if any stored record's food name does not resolve
in the current catalog, the whole load yields an error (the thrown exception
aborts the enclosing `map`), never a partial list. -/
theorem history_load_fatal :
    ∀ (catalog : List FoodEntry) (texts : List StorageData) (d : StorageData),
      d ∈ texts → findForName catalog d.foodName = none →
      ∃ msg, loadFromStorage catalog texts = Except.error msg := by
  intro catalog texts
  induction texts with
  | nil =>
    intro d hd
    simp at hd
  | cons t rest ih =>
    intro d hd hbad
    rcases List.mem_cons.mp hd with rfl | hd2
    · refine ⟨d.foodName, ?_⟩
      simp only [loadFromStorage, createFromStorage, hbad]
    · cases hc : createFromStorage catalog t with
      | error msg => exact ⟨msg, by simp only [loadFromStorage, hc]⟩
      | ok e =>
        obtain ⟨msg, hmsg⟩ := ih d hd2 hbad
        exact ⟨msg, by simp only [loadFromStorage, hc, hmsg]⟩

/-- C7 witness: a batch holding one record for "banana" loaded against a
catalog that only contains "apple" errors out. -/
theorem history_load_fatal_witness :
    ∃ msg, loadFromStorage [appleFood]
        [{ foodName := ("banana").toList, consumedName := ("banana").toList,
           date := 0 }] = Except.error msg :=
  history_load_fatal [appleFood]
    [{ foodName := ("banana").toList, consumedName := ("banana").toList, date := 0 }]
    { foodName := ("banana").toList, consumedName := ("banana").toList, date := 0 }
    (by decide) (by decide)

theorem matcher_edge_cases_witness :
    processText (importCompareItems peaRows) [] = [] ∧
    processText (importCompareItems peaRows) (("just water").toList) = [] := by
  constructor
  · exact matcher_edge_cases_amended.1 (importCompareItems peaRows) (by decide)
  · exact matcher_edge_cases_amended.2 (importCompareItems peaRows)
      (("just water").toList) (by decide)

end Foods
